import Mathlib

/-!
Shallow embedding of `src/wasm-game-of-life/src/lib.rs` (Conway's Game of
Life on a fixed 64×64 toroidal grid, cells stored in a `FixedBitSet`).

Modelling choices:
* A `FixedBitSet` of length `len` is a pair of `len : Nat` and a packed bit
  word `bits : Nat` (bit `i` of `bits` is cell `i`); unused high bits are
  zero, which the library guarantees (`with_capacity` zero-fills and `set`
  only touches bits below `len`).
* `FixedBitSet::set` asserts `bit < length` and panics otherwise; the panic
  is modelled by an `Option` result (`none` = panic).  Indexing
  (`cells[idx]`, i.e. `contains`) returns `false` out of range, which
  `Nat.testBit` does as well on a word with zero high bits.
* `Math::random() < 0.5` — an external random source — is abstracted as an
  injected sequence of boolean draws `draws : Nat → Bool`, `draws i` being
  the result of the `i`-th comparison inside one `init_random` call.
-/

namespace Gol

/-- One mutation of a packed bit word: `setBit x i b` is `x` with bit `i`
forced to `b`.  Setting ORs the mask in; clearing removes the mask (as the
Rust `block &= !mask` does), written as an XOR guarded on the bit being
set. -/
def setBit (x i : Nat) (b : Bool) : Nat :=
  if b then x ||| (1 <<< i) else (if x.testBit i then x ^^^ (1 <<< i) else x)

/-- `fixedbitset::FixedBitSet`: a bit array of length `len`, packed into the
natural number `bits`. -/
structure FixedBitSet where
  len : Nat
  bits : Nat
  deriving DecidableEq, Repr

namespace FixedBitSet

/-- `FixedBitSet::with_capacity(size)`: all-zero bit array of length
`size`. -/
def with_capacity (size : Nat) : FixedBitSet := ⟨size, 0⟩

/-- `FixedBitSet::contains` / `Index<usize>`: bit `i`, `false` out of
range. -/
def get (s : FixedBitSet) (i : Nat) : Bool := s.bits.testBit i

/-- `FixedBitSet::set(bit, enabled)`: `assert!(bit < self.length)` then
write the bit; the panic on a violated assertion is `none`. -/
def set (s : FixedBitSet) (i : Nat) (b : Bool) : Option FixedBitSet :=
  if i < s.len then some ⟨s.len, setBit s.bits i b⟩ else none

/-- `FixedBitSet::as_slice`: the underlying `u32` blocks,
`(len + 31) / 32` of them, least significant first. -/
def as_slice (s : FixedBitSet) : List Nat :=
  (List.range ((s.len + 31) / 32)).map fun j => (s.bits >>> (32 * j)) &&& (2 ^ 32 - 1)

end FixedBitSet

/-- `InitType` enum. -/
inductive InitType where
  | Random
  | Clear
  deriving DecidableEq, Repr

/-- The `Universe` struct. -/
structure Universe where
  width : Nat
  height : Nat
  cells : FixedBitSet
  deriving DecidableEq, Repr

namespace Universe

/-- `index![col, row, width] = (row * width + col) as usize`, and
`Universe::get_index(row, column) = (row * self.width + column) as usize`. -/
def get_index (u : Universe) (row col : Nat) : Nat :=
  row * u.width + col

/-- `Universe::init_random`: set every bit `i` in `0..width*height` to the
`i`-th random draw. -/
def init_random (width height : Nat) (cells : FixedBitSet) (draws : Nat → Bool) :
    Option FixedBitSet :=
  (List.range (width * height)).foldlM (fun cells i => cells.set i (draws i)) cells

/-- `Universe::new`: a 64×64 grid, zeroed, then randomized when
`ty = Random`. -/
def new (ty : InitType) (draws : Nat → Bool) : Option Universe :=
  let width := 64
  let height := 64
  let size := width * height
  let cells := FixedBitSet.with_capacity size
  match ty with
  | InitType.Random => (init_random width height cells draws).map fun cells =>
      ⟨width, height, cells⟩
  | InitType.Clear => some ⟨width, height, cells⟩

/-- `Universe::clear`: replace `cells` by a fresh all-dead bit array of the
same size. -/
def clear (u : Universe) : Universe :=
  { u with cells := FixedBitSet.with_capacity (u.width * u.height) }

/-- `Universe::put_random`: clone the cells, re-randomize the clone, swap it
in. -/
def put_random (u : Universe) (draws : Nat → Bool) : Option Universe :=
  (init_random u.width u.height u.cells draws).map fun next => { u with cells := next }

/-- `Universe::put_points`: set cell `(x + 5, y + 5)` alive for every
`(x, y)` in the list, on a clone that is swapped in at the end. -/
def put_points (u : Universe) (points : List (Nat × Nat)) : Option Universe :=
  let offset_row := 5
  let offset_col := 5
  (points.foldlM
      (fun (next : FixedBitSet) p =>
        next.set ((p.2 + offset_row) * u.width + (p.1 + offset_col)) true)
      u.cells).map
    fun next => { u with cells := next }

/-- The five glider points of `Universe::put_glider`. -/
def gliderPoints : List (Nat × Nat) := [(1, 0), (2, 1), (0, 2), (1, 2), (2, 2)]

/-- `Universe::put_glider`. -/
def put_glider (u : Universe) : Option Universe :=
  u.put_points gliderPoints

/-- The nine spaceship points of `Universe::put_spaceship`. -/
def spaceshipPoints : List (Nat × Nat) :=
  [(0, 0), (3, 0), (4, 1), (0, 2), (4, 2), (1, 3), (2, 3), (3, 3), (4, 3)]

/-- `Universe::put_spaceship`. -/
def put_spaceship (u : Universe) : Option Universe :=
  u.put_points spaceshipPoints

/-- The 48 points pushed by the loop in `Universe::put_line` (eight points
per `i` in `0..6`, in push order). -/
def linePoints : List (Nat × Nat) :=
  (List.range 6).flatMap fun i =>
    [(i, 0), (i, 1), (i + 3, 7), (i + 3, 8), (0, i + 3), (1, i + 3), (7, i), (8, i)]

/-- `Universe::put_line`. -/
def put_line (u : Universe) : Option Universe :=
  u.put_points linePoints

/-- The six points pushed by the loop in `Universe::put_nebra`. -/
def nebraPoints : List (Nat × Nat) :=
  (List.range 6).map fun i => (i, 0)

/-- `Universe::put_nebra`. -/
def put_nebra (u : Universe) : Option Universe :=
  u.put_points nebraPoints

/-- `Universe::live_neighbor_count`: iterate `delta_row` over
`[height-1, 0, 1]` and `delta_col` over `[width-1, 0, 1]`, skip the
`(0, 0)` pair, and add the neighbor bit at the wrapped position. -/
def live_neighbor_count (u : Universe) (row column : Nat) : Nat :=
  [u.height - 1, 0, 1].foldl
    (fun count delta_row =>
      [u.width - 1, 0, 1].foldl
        (fun count delta_col =>
          if delta_row = 0 && delta_col = 0 then count
          else
            let neighbor_row := (row + delta_row) % u.height
            let neighbor_col := (column + delta_col) % u.width
            let idx := u.get_index neighbor_row neighbor_col
            count + (if u.cells.get idx then 1 else 0))
        count)
    0

/-- The `match (cell, live_neighbors)` arms inside `Universe::tick`, guards
included: `(true, x) if x < 2 => false`, `(true, 2) | (true, 3) => true`,
`(true, x) if x > 3 => false`, `(false, 3) => true`, otherwise unchanged. -/
def nextCell (cell : Bool) (live_neighbors : Nat) : Bool :=
  match cell, live_neighbors with
  | true, x => if x < 2 then false else if x = 2 || x = 3 then true else
      if x > 3 then false else true
  | false, x => if x = 3 then true else false

/-- `Universe::tick`: clone the cells into `next`, write every cell's next
state into `next` (reading only `self.cells`), then swap `next` in. -/
def tick (u : Universe) : Option Universe :=
  ((List.range u.height).foldlM
      (fun next row =>
        (List.range u.width).foldlM
          (fun (next : FixedBitSet) col =>
            let idx := u.get_index row col
            let cell := u.cells.get idx
            let live_neighbors := u.live_neighbor_count row col
            next.set idx (nextCell cell live_neighbors))
          next)
      u.cells).map
    fun next => { u with cells := next }

/-- Glyph choice of `impl fmt::Display for Universe`: `'◻'` when the value
equals `1`, `'◼'` otherwise.  In the source the value compared is a whole
`u32` block of `as_slice`, not a single cell bit. -/
def symbol (cell : Nat) : Char :=
  if cell = 1 then '◻' else '◼'

/-- `as_slice().chunks(width)`: the block list cut into `width`-sized
chunks (structural recursion on a fuel that the initial call sizes to the
list length; `chunks` never panics here since `width > 0`). -/
def chunksAux (fuel n : Nat) (l : List Nat) : List (List Nat) :=
  match fuel, l with
  | 0, _ => []
  | _, [] => []
  | fuel + 1, l => l.take n :: chunksAux fuel n (l.drop n)

/-- The lines written by `impl fmt::Display for Universe`: one per chunk of
`width` blocks of `as_slice`. -/
def displayLines (u : Universe) : List (List Nat) :=
  chunksAux u.cells.as_slice.length u.width u.cells.as_slice

/-- The character stream `fmt` writes: each line's symbols then `'\n'`. -/
def renderChars (u : Universe) : List Char :=
  (u.displayLines.map fun line => line.map symbol ++ ['\n']).flatten

/-- `Universe::render` = `self.to_string()` via the `Display`
implementation. -/
def render (u : Universe) : String :=
  ⟨u.renderChars⟩

end Universe

/-! ### Definitions used by the verification layer -/

/-- The result of writing, in order, bit `i ← v i` for each `i` in `l`. -/
def writeList (v : Nat → Bool) (x : Nat) (l : List Nat) : Nat :=
  l.foldl (fun x i => setBit x i (v i)) x

/-- All `(row, col)` pairs of an `h × w` grid, in the row-major order the
`tick` loops visit them. -/
def gridPairs (h w : Nat) : List (Nat × Nat) :=
  (List.range h).flatMap fun r => (List.range w).map fun c => (r, c)

/-- The word whose bit `c` is `f c`, for `c < n`. -/
def bitsOfFn (f : Nat → Bool) : Nat → Nat
  | 0 => 0
  | n + 1 => bitsOfFn f n + (if f n then 2 ^ n else 0)

/-- The word whose `k`-bit block `r` is `W r`, for `r < n`. -/
def wordsOfFn (W : Nat → Nat) (k : Nat) : Nat → Nat
  | 0 => 0
  | n + 1 => wordsOfFn W k n + W n * 2 ^ (k * n)

namespace Universe

/-- The bit index written for point `p` by `put_points` (offsets 5 and 5):
`index![x + 5, y + 5, width]`. -/
def pointIndex (w : Nat) (p : Nat × Nat) : Nat :=
  (p.2 + 5) * w + (p.1 + 5)

/-- The next-generation value of bit `i`, read entirely from the pre-tick
grid `u`. -/
def tickVal (u : Universe) (i : Nat) : Bool :=
  nextCell (u.cells.get i) (u.live_neighbor_count (i / u.width) (i % u.width))

/-- The row-major list of bit indices `tick` writes. -/
def gridIndices (u : Universe) : List Nat :=
  (gridPairs u.height u.width).map fun p => p.1 * u.width + p.2

/-- The next-generation word of row `r`, as a positional sum over its
`width` column bits. -/
def rowWord (u : Universe) (r : Nat) : Nat :=
  bitsOfFn (fun c => tickVal u (r * u.width + c)) u.width

/-- The whole next-generation grid word, as a positional sum over its
`height` row words. -/
def stepBits (u : Universe) : Nat :=
  wordsOfFn (rowWord u) u.width u.height

end Universe

/-! ### A bitsliced evaluator for one generation

The per-cell evaluator `stepBits` forces one neighbor lookup at a time; the
definitions below compute a whole generation with a fixed number of
whole-board word operations (toroidal rotations of the packed board, a
bit-parallel 3-bit adder for the eight neighbor boards, and the rule as a
boolean formula), which a checker can evaluate cheaply.  They are proved
equal to `stepBits` bit by bit. -/

/-- Bits of column 0 of every row. -/
def colMask0 : Nat := wordsOfFn (fun _ => 1) 64 64

/-- Bits of column 63 of every row. -/
def colMaskTop : Nat := wordsOfFn (fun _ => 2 ^ 63) 64 64

/-- Bits of columns 0–62 of every row. -/
def colMaskKeep : Nat := wordsOfFn (fun _ => 2 ^ 63 - 1) 64 64

/-- All 4096 board bits. -/
def fullMask : Nat := 2 ^ 4096 - 1

/-- The board read at row `r + 1 (mod 64)`, same column. -/
def rowRotNext (x : Nat) : Nat := (x >>> 64) ||| ((x &&& (2 ^ 64 - 1)) <<< 4032)

/-- The board read at row `r + 63 (mod 64)`, same column. -/
def rowRotPrev (x : Nat) : Nat := ((x &&& (2 ^ 4032 - 1)) <<< 64) ||| (x >>> 4032)

/-- The board read at column `c + 1 (mod 64)`, same row. -/
def colRotNext (x : Nat) : Nat := ((x >>> 1) &&& colMaskKeep) ||| ((x &&& colMask0) <<< 63)

/-- The board read at column `c + 63 (mod 64)`, same row. -/
def colRotPrev (x : Nat) : Nat := ((x &&& colMaskKeep) <<< 1) ||| ((x &&& colMaskTop) >>> 63)

/-- The eight neighbor boards, in the order the `live_neighbor_count` loops
visit the offsets. -/
def neighborBoards (x : Nat) : List Nat :=
  [colRotPrev (rowRotPrev x), rowRotPrev x, colRotNext (rowRotPrev x),
   colRotPrev x, colRotNext x,
   colRotPrev (rowRotNext x), rowRotNext x, colRotNext (rowRotNext x)]

/-- One step of a 3-bit ripple adder on booleans (count modulo 8). -/
def addBit3 (s : Bool × Bool × Bool) (n : Bool) : Bool × Bool × Bool :=
  (s.1 ^^ n, s.2.1 ^^ (s.1 && n), s.2.2 ^^ (s.2.1 && (s.1 && n)))

/-- One step of the same adder on whole boards, one lane per cell. -/
def addBoard3 (s : Nat × Nat × Nat) (n : Nat) : Nat × Nat × Nat :=
  (s.1 ^^^ n, s.2.1 ^^^ (s.1 &&& n), s.2.2 ^^^ (s.2.1 &&& (s.1 &&& n)))

/-- Bit `j` of each lane of an adder state. -/
def tripleBit (s : Nat × Nat × Nat) (j : Nat) : Bool × Bool × Bool :=
  (s.1.testBit j, s.2.1.testBit j, s.2.2.testBit j)

/-- The life rule of one cell from its neighbor bits: alive next iff the
3-bit neighbor count is 3, or the cell is alive and the count is 2 (a
count of 8 wraps to 0 and keeps the cell dead either way). -/
def boolStep (alive : Bool) (ns : List Bool) : Bool :=
  let s := ns.foldl addBit3 (false, false, false)
  (s.1 && (s.2.1 && !s.2.2)) || (alive && (!s.1 && (s.2.1 && !s.2.2)))

/-- One whole generation as word operations on the packed board. -/
def lifeStep (x : Nat) : Nat :=
  let s := (neighborBoards x).foldl addBoard3 (0, 0, 0)
  (s.1 &&& (s.2.1 &&& (fullMask ^^^ s.2.2))) |||
    (x &&& ((fullMask ^^^ s.1) &&& (s.2.1 &&& (fullMask ^^^ s.2.2))))

/-! ### Specification-side definitions

These follow the wording of the specification, to be compared with the
definitions above that follow the source. -/

/-- The Game-of-Life rule exactly as the specification states it: a live
cell with fewer than 2 live neighbors dies; a live cell with 2 or 3 live
neighbors survives; a live cell with more than 3 live neighbors dies; a
dead cell with exactly 3 live neighbors becomes alive; every other cell
keeps its state. -/
def lifeRule (alive : Bool) (n : Nat) : Bool :=
  if alive = true ∧ n < 2 then false
  else if alive = true ∧ (n = 2 ∨ n = 3) then true
  else if alive = true ∧ n > 3 then false
  else if alive = false ∧ n = 3 then true
  else alive

/-- The eight neighbor offsets of the specification: row and column each
offset by `-1`, `0`, `+1`, excluding `(0, 0)`. -/
def specNeighborDeltas : List (Int × Int) :=
  [(-1, -1), (-1, 0), (-1, 1), (0, -1), (0, 1), (1, -1), (1, 0), (1, 1)]

/-- An index offset by a (possibly negative) delta, modulo the grid
dimension. -/
def wrapIndex (dim i : Nat) (d : Int) : Nat :=
  (((i : Int) + d) % (dim : Int)).toNat

namespace Universe

/-- The specification's neighbor count: the number of live cells among the
8 toroidal neighbors. -/
def spec_live_neighbor_count (u : Universe) (row col : Nat) : Nat :=
  (specNeighborDeltas.map fun d =>
    if u.cells.get (u.get_index (wrapIndex u.height row d.1) (wrapIndex u.width col d.2))
    then 1 else 0).sum

/-- The state invariant of the program: a fixed 64×64 grid whose bit array
has exactly `width * height` bits (the packed word has no bits beyond
them). -/
def Inv (u : Universe) : Prop :=
  u.width = 64 ∧ u.height = 64 ∧ u.cells.len = u.width * u.height ∧
    u.cells.bits < 2 ^ u.cells.len

instance (u : Universe) : Decidable u.Inv := by
  unfold Inv
  infer_instance

end Universe

/-- The all-false draw sequence, used to instantiate the abstracted random
source at concrete inputs. -/
def noDraws : Nat → Bool := fun _ => false

/-! ### Bit-level lemmas about `setBit` -/

theorem one_shiftLeft_eq (i : Nat) : 1 <<< i = 2 ^ i := by
  rw [Nat.shiftLeft_eq, one_mul]

theorem testBit_setBit_self (x i : Nat) (b : Bool) : (setBit x i b).testBit i = b := by
  cases b with
  | false =>
    rw [setBit, if_neg (by simp)]
    by_cases h : x.testBit i
    · rw [if_pos h, Nat.testBit_xor, one_shiftLeft_eq, Nat.testBit_two_pow, h]
      simp
    · rw [if_neg h]
      simpa using h
  | true =>
    rw [setBit, if_pos rfl, Nat.testBit_or, one_shiftLeft_eq, Nat.testBit_two_pow]
    simp

theorem testBit_setBit_ne (x i : Nat) (b : Bool) {j : Nat} (hne : j ≠ i) :
    (setBit x i b).testBit j = x.testBit j := by
  cases b with
  | false =>
    rw [setBit, if_neg (by simp)]
    by_cases h : x.testBit i
    · rw [if_pos h, Nat.testBit_xor, one_shiftLeft_eq, Nat.testBit_two_pow,
        decide_eq_false (fun hij => hne hij.symm)]
      simp
    · rw [if_neg h]
  | true =>
    rw [setBit, if_pos rfl, Nat.testBit_or, one_shiftLeft_eq, Nat.testBit_two_pow,
      decide_eq_false (fun hij => hne hij.symm)]
    simp

theorem setBit_lt_two_pow {x n i : Nat} (hx : x < 2 ^ n) (hi : i < n) (b : Bool) :
    setBit x i b < 2 ^ n := by
  have hpow : 1 <<< i < 2 ^ n := by
    rw [one_shiftLeft_eq]
    exact Nat.pow_lt_pow_right one_lt_two hi
  cases b with
  | false =>
    rw [setBit, if_neg (by simp)]
    by_cases h : x.testBit i
    · rw [if_pos h]
      exact Nat.xor_lt_two_pow hx hpow
    · rwa [if_neg h]
  | true =>
    rw [setBit, if_pos rfl]
    exact Nat.or_lt_two_pow hx hpow

/-! ### Sequences of bit writes -/

theorem writeList_nil (v : Nat → Bool) (x : Nat) : writeList v x [] = x := rfl

theorem writeList_cons (v : Nat → Bool) (x : Nat) (i : Nat) (l : List Nat) :
    writeList v x (i :: l) = writeList v (setBit x i (v i)) l := rfl

theorem testBit_writeList_of_not_mem {v : Nat → Bool} {x : Nat} {l : List Nat} {j : Nat}
    (h : ∀ i ∈ l, i ≠ j) : (writeList v x l).testBit j = x.testBit j := by
  induction l generalizing x with
  | nil => rfl
  | cons i l ih =>
    rw [writeList_cons, ih fun i hi => h i (List.mem_cons_of_mem _ hi),
      testBit_setBit_ne _ _ _ (Ne.symm (h i (List.mem_cons_self i l)))]

theorem testBit_writeList_of_mem {v : Nat → Bool} {x : Nat} {l : List Nat} {j : Nat}
    (h : j ∈ l) : (writeList v x l).testBit j = v j := by
  induction l generalizing x with
  | nil => cases h
  | cons i l ih =>
    rw [writeList_cons]
    by_cases hj : j ∈ l
    · exact ih hj
    · have hij : i = j := by
        rcases List.mem_cons.mp h with h' | h'
        · exact h'.symm
        · exact absurd h' hj
      subst hij
      rw [testBit_writeList_of_not_mem fun k hk hkj => hj (by rw [← hkj]; exact hk),
        testBit_setBit_self]

theorem writeList_lt_two_pow {v : Nat → Bool} {x n : Nat} {l : List Nat}
    (hx : x < 2 ^ n) (hl : ∀ i ∈ l, i < n) : writeList v x l < 2 ^ n := by
  induction l generalizing x with
  | nil => exact hx
  | cons i l ih =>
    rw [writeList_cons]
    exact ih (setBit_lt_two_pow hx (hl i (List.mem_cons_self i l)) _)
      fun k hk => hl k (List.mem_cons_of_mem _ hk)

/-! ### Characterizing the `Option`-valued folds of the Rust mutators -/

theorem FixedBitSet.set_eq_some (s : FixedBitSet) {i : Nat} (h : i < s.len) (b : Bool) :
    s.set i b = some ⟨s.len, setBit s.bits i b⟩ := by
  rw [FixedBitSet.set, if_pos h]

/-- A fold of in-bounds `FixedBitSet.set` calls never panics, and its result
is the corresponding `writeList` of bit writes. -/
theorem foldlM_set_eq (v : Nat → Bool) (l : List Nat) (s : FixedBitSet)
    (h : ∀ i ∈ l, i < s.len) :
    (l.foldlM (fun (s : FixedBitSet) i => s.set i (v i)) s) =
      some ⟨s.len, writeList v s.bits l⟩ := by
  induction l generalizing s with
  | nil => rfl
  | cons i l ih =>
    rw [List.foldlM_cons, FixedBitSet.set_eq_some s (h i (List.mem_cons_self i l)) (v i)]
    show (l.foldlM (fun (s : FixedBitSet) i => s.set i (v i))
      (⟨s.len, setBit s.bits i (v i)⟩ : FixedBitSet)) = _
    rw [ih ⟨s.len, setBit s.bits i (v i)⟩ fun k hk => h k (List.mem_cons_of_mem _ hk),
      writeList_cons]

/-- Pointwise-equal step functions give equal `Option` folds. -/
theorem foldlM_congr {α β : Type} (f g : β → α → Option β) (l : List α) (b : β)
    (h : ∀ b a, a ∈ l → f b a = g b a) :
    l.foldlM f b = l.foldlM g b := by
  induction l generalizing b with
  | nil => rfl
  | cons a l ih =>
    rw [List.foldlM_cons, List.foldlM_cons, h b a (List.mem_cons_self a l)]
    cases g b a with
    | none => rfl
    | some b' =>
      show l.foldlM f b' = l.foldlM g b'
      exact ih b' fun b a ha => h b a (List.mem_cons_of_mem _ ha)

/-- A nested `Option` fold over two index ranges is the flat fold over the
row-major list of pairs. -/
theorem foldlM_foldlM_eq_pairs {β : Type} (f : β → Nat → Nat → Option β)
    (outer inner : List Nat) (b : β) :
    (outer.foldlM (fun b r => inner.foldlM (fun b c => f b r c) b) b) =
      ((outer.flatMap fun r => inner.map fun c => (r, c)).foldlM
        (fun b p => f b p.1 p.2) b) := by
  induction outer generalizing b with
  | nil => rfl
  | cons r outer ih =>
    rw [List.foldlM_cons, List.flatMap_cons, List.foldlM_append]
    simp only [List.foldlM_map]
    cases hinner : inner.foldlM (fun b c => f b r c) b with
    | none => rfl
    | some b' =>
      exact ih b'

/-! ### Row-major index bookkeeping -/

theorem mem_gridPairs {h w : Nat} {p : Nat × Nat} :
    p ∈ gridPairs h w ↔ p.1 < h ∧ p.2 < w := by
  constructor
  · intro hp
    rcases List.mem_flatMap.mp hp with ⟨r, hr, hp⟩
    rcases List.mem_map.mp hp with ⟨c, hc, rfl⟩
    exact ⟨List.mem_range.mp hr, List.mem_range.mp hc⟩
  · intro ⟨h1, h2⟩
    exact List.mem_flatMap.mpr ⟨p.1, List.mem_range.mpr h1,
      List.mem_map.mpr ⟨p.2, List.mem_range.mpr h2, rfl⟩⟩

theorem rowcol_div {r c w : Nat} (hc : c < w) : (r * w + c) / w = r := by
  rw [Nat.add_comm, Nat.add_mul_div_right _ _ (Nat.lt_of_le_of_lt (Nat.zero_le c) hc),
    Nat.div_eq_of_lt hc, Nat.zero_add]

theorem rowcol_mod {r c w : Nat} (hc : c < w) : (r * w + c) % w = c := by
  rw [Nat.add_comm, Nat.add_mul_mod_self_right, Nat.mod_eq_of_lt hc]

namespace Universe

theorem tickVal_rowcol (u : Universe) {r c : Nat} (hc : c < u.width) :
    tickVal u (r * u.width + c) =
      nextCell (u.cells.get (r * u.width + c)) (u.live_neighbor_count r c) := by
  rw [tickVal, rowcol_div hc, rowcol_mod hc]

theorem mem_gridIndices (u : Universe) {r c : Nat} (hr : r < u.height) (hc : c < u.width) :
    r * u.width + c ∈ gridIndices u :=
  List.mem_map.mpr ⟨(r, c), mem_gridPairs.mpr ⟨hr, hc⟩, rfl⟩

/-! ### Closed forms of the mutating operations -/

theorem init_random_eq (w h : Nat) (s : FixedBitSet) (draws : Nat → Bool)
    (hlen : s.len = w * h) :
    init_random w h s draws = some ⟨s.len, writeList draws s.bits (List.range (w * h))⟩ :=
  foldlM_set_eq draws _ s fun _ hi => hlen ▸ List.mem_range.mp hi

theorem put_points_eq (u : Universe) (pts : List (Nat × Nat))
    (h : ∀ p ∈ pts, pointIndex u.width p < u.cells.len) :
    u.put_points pts = some { u with cells :=
      ⟨u.cells.len, writeList (fun _ => true) u.cells.bits (pts.map (pointIndex u.width))⟩ } := by
  have hfold : pts.foldlM
      (fun (next : FixedBitSet) p => next.set (pointIndex u.width p) true) u.cells =
      some ⟨u.cells.len, writeList (fun _ => true) u.cells.bits (pts.map (pointIndex u.width))⟩ := by
    have hset := foldlM_set_eq (fun _ => true) (pts.map (pointIndex u.width)) u.cells (by
      intro i hi
      rcases List.mem_map.mp hi with ⟨p, hp, rfl⟩
      exact h p hp)
    rw [List.foldlM_map] at hset
    exact hset
  simp only [put_points]
  rw [show (fun (next : FixedBitSet) p =>
      next.set ((p.2 + 5) * u.width + (p.1 + 5)) true) =
      (fun (next : FixedBitSet) p => next.set (pointIndex u.width p) true) from rfl]
  rw [hfold]
  rfl

theorem tick_eq (u : Universe) (hlen : u.cells.len = u.width * u.height) :
    u.tick = some { u with cells :=
      ⟨u.cells.len, writeList (tickVal u) u.cells.bits (gridIndices u)⟩ } := by
  have hpairs : (List.range u.height).foldlM
      (fun (next : FixedBitSet) row => (List.range u.width).foldlM
        (fun (next : FixedBitSet) col =>
          next.set (u.get_index row col)
            (nextCell (u.cells.get (u.get_index row col)) (u.live_neighbor_count row col)))
        next) u.cells =
      (gridPairs u.height u.width).foldlM
        (fun (next : FixedBitSet) p =>
          next.set (u.get_index p.1 p.2)
            (nextCell (u.cells.get (u.get_index p.1 p.2)) (u.live_neighbor_count p.1 p.2)))
        u.cells :=
    foldlM_foldlM_eq_pairs
      (fun (next : FixedBitSet) row col =>
        next.set (u.get_index row col)
          (nextCell (u.cells.get (u.get_index row col)) (u.live_neighbor_count row col)))
      (List.range u.height) (List.range u.width) u.cells
  have hcongr : (gridPairs u.height u.width).foldlM
      (fun (next : FixedBitSet) p =>
        next.set (u.get_index p.1 p.2)
          (nextCell (u.cells.get (u.get_index p.1 p.2)) (u.live_neighbor_count p.1 p.2)))
      u.cells =
      (gridPairs u.height u.width).foldlM
        (fun (next : FixedBitSet) p =>
          next.set (p.1 * u.width + p.2) (tickVal u (p.1 * u.width + p.2))) u.cells := by
    refine foldlM_congr _ _ _ _ ?_
    intro b p hp
    have hc : p.2 < u.width := (mem_gridPairs.mp hp).2
    show b.set (u.get_index p.1 p.2)
        (nextCell (u.cells.get (u.get_index p.1 p.2)) (u.live_neighbor_count p.1 p.2)) =
      b.set (p.1 * u.width + p.2) (tickVal u (p.1 * u.width + p.2))
    rw [tickVal_rowcol u hc]
    rfl
  have hfold : (gridPairs u.height u.width).foldlM
      (fun (next : FixedBitSet) p =>
        next.set (p.1 * u.width + p.2) (tickVal u (p.1 * u.width + p.2))) u.cells =
      some ⟨u.cells.len, writeList (tickVal u) u.cells.bits (gridIndices u)⟩ := by
    have hset := foldlM_set_eq (tickVal u)
      ((gridPairs u.height u.width).map fun p => p.1 * u.width + p.2) u.cells (by
        intro i hi
        rcases List.mem_map.mp hi with ⟨p, hp, rfl⟩
        rcases mem_gridPairs.mp hp with ⟨h1, h2⟩
        calc p.1 * u.width + p.2 < p.1 * u.width + u.width := by omega
          _ = (p.1 + 1) * u.width := by ring
          _ ≤ u.height * u.width := Nat.mul_le_mul_right _ h1
          _ = u.width * u.height := Nat.mul_comm _ _
          _ = u.cells.len := hlen.symm)
    rw [List.foldlM_map] at hset
    exact hset
  simp only [tick]
  rw [hpairs, hcongr, hfold]
  rfl

end Universe

/-! ### A positional evaluator for one generation

`writeList` nests one `setBit` per cell, which is too deep to force
directly on a 64×64 grid; the positional sums below compute the same word
row by row, and are proved equal to the written word bit by bit. -/

theorem testBit_add_mul_two_pow_lt {x n j : Nat} (m : Nat) (hx : x < 2 ^ n) (hj : j < n) :
    (x + m * 2 ^ n).testBit j = x.testBit j := by
  have h1 : (x + m * 2 ^ n) % 2 ^ n = x := by
    rw [Nat.add_mul_mod_self_right, Nat.mod_eq_of_lt hx]
  have h2 := Nat.testBit_mod_two_pow (x + m * 2 ^ n) n j
  rw [h1, decide_eq_true hj, Bool.true_and] at h2
  exact h2.symm

theorem bitsOfFn_lt_two_pow (f : Nat → Bool) (n : Nat) : bitsOfFn f n < 2 ^ n := by
  induction n with
  | zero => exact Nat.one_pos
  | succ n ih =>
    have h2 : 2 ^ (n + 1) = 2 ^ n + 2 ^ n := by rw [pow_succ]; ring
    rw [bitsOfFn]
    split <;> omega

theorem testBit_bitsOfFn (f : Nat → Bool) (n j : Nat) :
    (bitsOfFn f n).testBit j = (decide (j < n) && f j) := by
  induction n with
  | zero => simp [bitsOfFn]
  | succ n ih =>
    have hlt := bitsOfFn_lt_two_pow f n
    rcases Nat.lt_trichotomy j n with hj | hj | hj
    · rw [bitsOfFn]
      have : (bitsOfFn f n + if f n then 2 ^ n else 0).testBit j =
          (bitsOfFn f n).testBit j := by
        split
        · have := testBit_add_mul_two_pow_lt 1 hlt hj (x := bitsOfFn f n)
          rwa [one_mul] at this
        · rw [Nat.add_zero]
      rw [this, ih, decide_eq_true hj, decide_eq_true (Nat.lt_succ_of_lt hj)]
    · subst hj
      rw [bitsOfFn, decide_eq_true (Nat.lt_succ_self j)]
      by_cases hf : f j
      · rw [if_pos hf, hf, Nat.testBit_to_div_mod,
          Nat.add_div_right _ (Nat.two_pow_pos j), Nat.div_eq_of_lt hlt]
        rfl
      · rw [if_neg hf, Nat.add_zero, Nat.testBit_lt_two_pow hlt]
        simp [hf]
    · have hout : bitsOfFn f (n + 1) < 2 ^ j := by
        calc bitsOfFn f (n + 1) < 2 ^ (n + 1) := bitsOfFn_lt_two_pow f (n + 1)
          _ ≤ 2 ^ j := Nat.pow_le_pow_right (by omega) hj
      rw [Nat.testBit_lt_two_pow hout, decide_eq_false (by omega)]
      rfl

theorem wordsOfFn_lt_two_pow {W : Nat → Nat} {k : Nat} (hW : ∀ i, W i < 2 ^ k) (n : Nat) :
    wordsOfFn W k n < 2 ^ (k * n) := by
  induction n with
  | zero => exact Nat.one_pos
  | succ n ih =>
    have h1 : wordsOfFn W k n + W n * 2 ^ (k * n) < (W n + 1) * 2 ^ (k * n) := by
      have hstep : wordsOfFn W k n + W n * 2 ^ (k * n) <
          2 ^ (k * n) + W n * 2 ^ (k * n) := Nat.add_lt_add_right ih _
      have heq : (W n + 1) * 2 ^ (k * n) = 2 ^ (k * n) + W n * 2 ^ (k * n) := by ring
      omega
    have h2 : (W n + 1) * 2 ^ (k * n) ≤ 2 ^ k * 2 ^ (k * n) :=
      Nat.mul_le_mul_right _ (hW n)
    have h3 : 2 ^ k * 2 ^ (k * n) = 2 ^ (k * (n + 1)) := by
      rw [← pow_add, Nat.mul_succ, Nat.add_comm]
    rw [wordsOfFn]
    omega

theorem testBit_wordsOfFn {W : Nat → Nat} {k : Nat} (hW : ∀ i, W i < 2 ^ k) (n : Nat)
    {j : Nat} (hj : j < k * n) : (wordsOfFn W k n).testBit j = (W (j / k)).testBit (j % k) := by
  induction n with
  | zero => omega
  | succ n ih =>
    have hlt := wordsOfFn_lt_two_pow hW n
    by_cases hjn : j < k * n
    · rw [wordsOfFn, testBit_add_mul_two_pow_lt _ hlt hjn, ih hjn]
    · have hksucc : k * (n + 1) = k * n + k := Nat.mul_succ k n
      obtain ⟨r, hrk, rfl⟩ : ∃ r, r < k ∧ j = n * k + r :=
        ⟨j - k * n, by omega, by rw [Nat.mul_comm]; omega⟩
      rw [rowcol_div hrk, rowcol_mod hrk, wordsOfFn,
        show n * k + r = k * n + r from by rw [Nat.mul_comm], ← Nat.testBit_shiftRight,
        Nat.shiftRight_eq_div_pow, Nat.add_mul_div_right _ _ (Nat.two_pow_pos _),
        Nat.div_eq_of_lt hlt, Nat.zero_add]

namespace Universe

theorem rowWord_lt_two_pow (u : Universe) (r : Nat) : rowWord u r < 2 ^ u.width :=
  bitsOfFn_lt_two_pow _ _

theorem stepBits_lt_two_pow (u : Universe) : stepBits u < 2 ^ (u.width * u.height) :=
  wordsOfFn_lt_two_pow (rowWord_lt_two_pow u) _

/-- The word `tick` writes equals the positional evaluation, bit by bit. -/
theorem writeList_tickVal_eq_stepBits (u : Universe)
    (hlen : u.cells.len = u.width * u.height) (hbits : u.cells.bits < 2 ^ u.cells.len) :
    writeList (tickVal u) u.cells.bits (gridIndices u) = stepBits u := by
  have hidx : ∀ i ∈ gridIndices u, i < u.width * u.height := by
    intro i hi
    rcases List.mem_map.mp hi with ⟨p, hp, rfl⟩
    rcases mem_gridPairs.mp hp with ⟨h1, h2⟩
    calc p.1 * u.width + p.2 < p.1 * u.width + u.width := by omega
      _ = (p.1 + 1) * u.width := by ring
      _ ≤ u.height * u.width := Nat.mul_le_mul_right _ h1
      _ = u.width * u.height := Nat.mul_comm _ _
  apply Nat.eq_of_testBit_eq
  intro j
  by_cases hj : j < u.width * u.height
  · have hw : 0 < u.width := by
      rcases Nat.eq_zero_or_pos u.width with h0 | h0
      · rw [h0] at hj; omega
      · exact h0
    have hc : j % u.width < u.width := Nat.mod_lt _ hw
    have hr : j / u.width < u.height :=
      (Nat.div_lt_iff_lt_mul hw).mpr (by rw [Nat.mul_comm] at hj; exact hj)
    have hrep : j / u.width * u.width + j % u.width = j := Nat.div_add_mod' j u.width
    have hmem : j ∈ gridIndices u := by
      rw [← hrep]
      exact mem_gridIndices u hr hc
    rw [testBit_writeList_of_mem hmem, stepBits,
      testBit_wordsOfFn (rowWord_lt_two_pow u) _ hj, rowWord, testBit_bitsOfFn,
      decide_eq_true hc, Bool.true_and, hrep]
  · have h1 : writeList (tickVal u) u.cells.bits (gridIndices u) < 2 ^ j := by
      calc writeList (tickVal u) u.cells.bits (gridIndices u) < 2 ^ (u.width * u.height) :=
            writeList_lt_two_pow (hlen ▸ hbits) hidx
        _ ≤ 2 ^ j := Nat.pow_le_pow_right (by omega) (by omega)
    have h2 : stepBits u < 2 ^ j := by
      calc stepBits u < 2 ^ (u.width * u.height) := stepBits_lt_two_pow u
        _ ≤ 2 ^ j := Nat.pow_le_pow_right (by omega) (by omega)
    rw [Nat.testBit_lt_two_pow h1, Nat.testBit_lt_two_pow h2]

/-- `tick` in evaluable form: the next state is the positional evaluation
`stepBits`. -/
theorem tick_eq_stepBits (u : Universe)
    (hlen : u.cells.len = u.width * u.height) (hbits : u.cells.bits < 2 ^ u.cells.len) :
    u.tick = some { u with cells := ⟨u.cells.len, stepBits u⟩ } := by
  rw [tick_eq u hlen, writeList_tickVal_eq_stepBits u hlen hbits]

end Universe

/-! ### Helper lemmas for the claim theorems -/

theorem nextCell_eq_lifeRule (c : Bool) (n : Nat) : Universe.nextCell c n = lifeRule c n := by
  cases c with
  | false =>
    rw [Universe.nextCell, lifeRule]
    by_cases h3 : n = 3 <;> simp [h3]
  | true =>
    rw [Universe.nextCell, lifeRule]
    rcases Nat.lt_trichotomy n 2 with h | h | h
    · simp [h]
    · simp [h]
    · rcases Nat.lt_trichotomy n 3 with h' | h' | h' <;> simp [h', Nat.lt_asymm h]

theorem gridIndices_lt (u : Universe) :
    ∀ i ∈ u.gridIndices, i < u.width * u.height := by
  intro i hi
  rcases List.mem_map.mp hi with ⟨p, hp, rfl⟩
  rcases mem_gridPairs.mp hp with ⟨h1, h2⟩
  calc p.1 * u.width + p.2 < p.1 * u.width + u.width := by omega
    _ = (p.1 + 1) * u.width := by ring
    _ ≤ u.height * u.width := Nat.mul_le_mul_right _ h1
    _ = u.width * u.height := Nat.mul_comm _ _

/-! ### Claim theorems -/

/-- C1: for every grid state whose bit array has `width * height` bits,
`tick` succeeds, keeps the dimensions, and sets every cell of the new grid
to the specification's Game-of-Life rule applied to that cell's pre-tick
state and pre-tick live-neighbor count; the right-hand side of the cell
equation reads only the pre-tick universe `u`, so no update observes
another cell's already-updated next state. -/
theorem tick_follows_life_rule (u : Universe)
    (hlen : u.cells.len = u.width * u.height) :
    ∃ u', u.tick = some u' ∧ u'.width = u.width ∧ u'.height = u.height ∧
      ∀ row col, row < u.height → col < u.width →
        u'.cells.get (u.get_index row col) =
          lifeRule (u.cells.get (u.get_index row col)) (u.live_neighbor_count row col) := by
  refine ⟨_, Universe.tick_eq u hlen, rfl, rfl, ?_⟩
  intro row col hr hc
  show (writeList (u.tickVal) u.cells.bits u.gridIndices).testBit (u.get_index row col) =
    lifeRule (u.cells.get (u.get_index row col)) (u.live_neighbor_count row col)
  rw [show u.get_index row col = row * u.width + col from rfl,
    testBit_writeList_of_mem (Universe.mem_gridIndices u hr hc),
    Universe.tickVal_rowcol u hc, nextCell_eq_lifeRule]

/-- Witness for C1 at a concrete universe. -/
theorem tick_follows_life_rule_witness :
    ((⟨64, 64, ⟨4096, 7⟩⟩ : Universe).cells.len =
        (⟨64, 64, ⟨4096, 7⟩⟩ : Universe).width * (⟨64, 64, ⟨4096, 7⟩⟩ : Universe).height) ∧
      (∃ u', (⟨64, 64, ⟨4096, 7⟩⟩ : Universe).tick = some u' ∧ u'.width = 64 ∧
        u'.height = 64 ∧ ∀ row col, row < 64 → col < 64 →
          u'.cells.get ((⟨64, 64, ⟨4096, 7⟩⟩ : Universe).get_index row col) =
            lifeRule ((⟨64, 64, ⟨4096, 7⟩⟩ : Universe).cells.get
                ((⟨64, 64, ⟨4096, 7⟩⟩ : Universe).get_index row col))
              ((⟨64, 64, ⟨4096, 7⟩⟩ : Universe).live_neighbor_count row col)) :=
  ⟨rfl, tick_follows_life_rule ⟨64, 64, ⟨4096, 7⟩⟩ rfl⟩

/-- C7: `clear` yields the all-dead grid of the same dimensions, and a
second `clear` yields exactly the same grid as the first. -/
theorem clear_idempotent_absorbing (u : Universe) :
    u.clear.width = u.width ∧ u.clear.height = u.height ∧
      u.clear.cells.len = u.width * u.height ∧
      (∀ j, u.clear.cells.get j = false) ∧
      u.clear.clear = u.clear :=
  ⟨rfl, rfl, rfl, fun j => Nat.zero_testBit j, rfl⟩

/-- C8: `tick` is deterministic — two universes with equal pre-tick width,
height and cells tick to equal results. -/
theorem tick_deterministic (u1 u2 : Universe) (hw : u1.width = u2.width)
    (hh : u1.height = u2.height) (hc : u1.cells = u2.cells) :
    u1.tick = u2.tick := by
  cases u1
  cases u2
  simp only at hw hh hc
  subst hw
  subst hh
  subst hc
  rfl

/-- Witness for C8 at two syntactically different but equal universes. -/
theorem tick_deterministic_witness :
    (⟨64, 64, ⟨4096, 5⟩⟩ : Universe).width = (⟨64, 64, ⟨4096, 2 + 3⟩⟩ : Universe).width ∧
      (⟨64, 64, ⟨4096, 5⟩⟩ : Universe).tick = (⟨64, 64, ⟨4096, 2 + 3⟩⟩ : Universe).tick :=
  ⟨rfl, tick_deterministic ⟨64, 64, ⟨4096, 5⟩⟩ ⟨64, 64, ⟨4096, 2 + 3⟩⟩ rfl rfl (by decide)⟩

theorem put_random_eq (u : Universe) (d : Nat → Bool)
    (hlen : u.cells.len = u.width * u.height) :
    u.put_random d = some { u with cells :=
      ⟨u.cells.len, writeList d u.cells.bits (List.range (u.width * u.height))⟩ } := by
  simp only [Universe.put_random]
  rw [Universe.init_random_eq u.width u.height u.cells d hlen]
  rfl

theorem put_points_inv (u : Universe) (pts : List (Nat × Nat)) (u' : Universe) (h : u.Inv)
    (hpts : ∀ p ∈ pts, Universe.pointIndex 64 p < 4096)
    (hres : u.put_points pts = some u') :
    u'.Inv ∧ u'.width = u.width ∧ u'.height = u.height := by
  obtain ⟨hw, hh, hlen, hbits⟩ := h
  have hpts' : ∀ p ∈ pts, Universe.pointIndex u.width p < u.cells.len := by
    intro p hp
    rw [hw, hlen, hw, hh]
    have := hpts p hp
    omega
  rw [Universe.put_points_eq u pts hpts'] at hres
  injection hres with hres
  subst hres
  refine ⟨⟨hw, hh, hlen, ?_⟩, rfl, rfl⟩
  dsimp only
  exact writeList_lt_two_pow hbits (by
    intro i hi
    rcases List.mem_map.mp hi with ⟨p, hp, rfl⟩
    exact hpts' p hp)

/-- C4: the constructor establishes, and every operation preserves, the
state invariant: `width = 64`, `height = 64`, and the cell bit array has
exactly `width * height` bits; no operation changes the dimensions. -/
theorem operations_preserve_invariant :
    (∀ ty d u, Universe.new ty d = some u → u.Inv) ∧
    (∀ u : Universe, u.Inv →
      u.clear.Inv ∧ u.clear.width = u.width ∧ u.clear.height = u.height) ∧
    (∀ (u : Universe) d u', u.Inv → u.put_random d = some u' →
      u'.Inv ∧ u'.width = u.width ∧ u'.height = u.height) ∧
    (∀ (u : Universe) u', u.Inv → u.put_glider = some u' →
      u'.Inv ∧ u'.width = u.width ∧ u'.height = u.height) ∧
    (∀ (u : Universe) u', u.Inv → u.put_spaceship = some u' →
      u'.Inv ∧ u'.width = u.width ∧ u'.height = u.height) ∧
    (∀ (u : Universe) u', u.Inv → u.put_line = some u' →
      u'.Inv ∧ u'.width = u.width ∧ u'.height = u.height) ∧
    (∀ (u : Universe) u', u.Inv → u.put_nebra = some u' →
      u'.Inv ∧ u'.width = u.width ∧ u'.height = u.height) ∧
    (∀ (u : Universe) u', u.Inv → u.tick = some u' →
      u'.Inv ∧ u'.width = u.width ∧ u'.height = u.height) := by
  refine ⟨?_, ?_, ?_, ?_, ?_, ?_, ?_, ?_⟩
  · intro ty d u h
    cases ty with
    | Clear =>
      rw [show Universe.new InitType.Clear d = some ⟨64, 64, ⟨4096, 0⟩⟩ from rfl] at h
      injection h with h
      subst h
      exact ⟨rfl, rfl, rfl, Nat.two_pow_pos _⟩
    | Random =>
      simp only [Universe.new] at h
      rw [Universe.init_random_eq 64 64 (FixedBitSet.with_capacity (64 * 64)) d rfl,
        Option.map_some'] at h
      injection h with h
      subst h
      refine ⟨rfl, rfl, rfl, ?_⟩
      dsimp only
      exact writeList_lt_two_pow (Nat.two_pow_pos _) fun i hi => List.mem_range.mp hi
  · intro u h
    exact ⟨⟨h.1, h.2.1, rfl, Nat.two_pow_pos _⟩, rfl, rfl⟩
  · intro u d u' h hres
    obtain ⟨hw, hh, hlen, hbits⟩ := h
    rw [put_random_eq u d hlen] at hres
    injection hres with hres
    subst hres
    refine ⟨⟨hw, hh, hlen, ?_⟩, rfl, rfl⟩
    dsimp only
    exact writeList_lt_two_pow hbits fun i hi => by
      rw [hlen]
      exact List.mem_range.mp hi
  · intro u u' h hres
    exact put_points_inv u Universe.gliderPoints u' h (by decide) hres
  · intro u u' h hres
    exact put_points_inv u Universe.spaceshipPoints u' h (by decide) hres
  · intro u u' h hres
    exact put_points_inv u Universe.linePoints u' h (by decide) hres
  · intro u u' h hres
    exact put_points_inv u Universe.nebraPoints u' h (by decide) hres
  · intro u u' h hres
    obtain ⟨hw, hh, hlen, hbits⟩ := h
    rw [Universe.tick_eq u hlen] at hres
    injection hres with hres
    subst hres
    refine ⟨⟨hw, hh, hlen, ?_⟩, rfl, rfl⟩
    dsimp only
    exact writeList_lt_two_pow hbits fun i hi => by
      rw [hlen]
      exact gridIndices_lt u i hi

/-- Witness for C4: the clear constructor output satisfies the invariant. -/
theorem operations_preserve_invariant_witness :
    Universe.new InitType.Clear noDraws = some ⟨64, 64, ⟨4096, 0⟩⟩ ∧
      (⟨64, 64, ⟨4096, 0⟩⟩ : Universe).Inv :=
  ⟨rfl, operations_preserve_invariant.1 InitType.Clear noDraws ⟨64, 64, ⟨4096, 0⟩⟩ rfl⟩

theorem FixedBitSet.get_mk (len bits i : Nat) :
    (⟨len, bits⟩ : FixedBitSet).get i = bits.testBit i := rfl

theorem foldlM_set_some_bounds (v : Nat → Bool) (l : List Nat) (s s' : FixedBitSet)
    (h : (l.foldlM (fun (s : FixedBitSet) i => s.set i (v i)) s) = some s') :
    ∀ i ∈ l, i < s.len := by
  induction l generalizing s with
  | nil => intro i hi; cases hi
  | cons a l ih =>
    rw [List.foldlM_cons] at h
    by_cases ha : a < s.len
    · rw [FixedBitSet.set_eq_some s ha] at h
      have h' : l.foldlM (fun (s : FixedBitSet) i => s.set i (v i))
          (⟨s.len, setBit s.bits a (v a)⟩ : FixedBitSet) = some s' := h
      intro i hi
      rcases List.mem_cons.mp hi with rfl | hi'
      · exact ha
      · exact ih ⟨s.len, setBit s.bits a (v a)⟩ h' i hi'
    · exfalso
      rw [FixedBitSet.set, if_neg ha] at h
      exact Option.noConfusion h

theorem put_points_some_bounds (u : Universe) (pts : List (Nat × Nat)) (u' : Universe)
    (h : u.put_points pts = some u') :
    ∀ p ∈ pts, Universe.pointIndex u.width p < u.cells.len := by
  simp only [Universe.put_points] at h
  cases hfold : pts.foldlM
      (fun (next : FixedBitSet) p => next.set ((p.2 + 5) * u.width + (p.1 + 5)) true)
      u.cells with
  | none => rw [hfold] at h; exact absurd h (by simp)
  | some s' =>
    have hmap : (pts.map (Universe.pointIndex u.width)).foldlM
        (fun (s : FixedBitSet) i => s.set i true) u.cells = some s' := by
      rw [List.foldlM_map]
      exact hfold
    intro p hp
    exact foldlM_set_some_bounds (fun _ => true) _ _ _ hmap
      (Universe.pointIndex u.width p) (List.mem_map_of_mem _ hp)

theorem put_points_dims (u : Universe) (pts : List (Nat × Nat)) (u' : Universe)
    (h : u.put_points pts = some u') : u'.width = u.width ∧ u'.height = u.height := by
  simp only [Universe.put_points] at h
  cases hfold : pts.foldlM
      (fun (next : FixedBitSet) p => next.set ((p.2 + 5) * u.width + (p.1 + 5)) true)
      u.cells with
  | none => rw [hfold] at h; exact absurd h (by simp)
  | some s =>
    rw [hfold, Option.map_some'] at h
    injection h with h
    subst h
    exact ⟨rfl, rfl⟩

/-- C5: `put_points` is additive — every cell alive before a successful
call is still alive after it, and all the listed cells (at the fixed
offset of 5 rows and 5 columns) are alive after it; in particular seeding
`put_glider` and then `put_nebra` leaves the live cells of both patterns
simultaneously alive. -/
theorem put_points_additive :
    (∀ (u : Universe) (pts : List (Nat × Nat)) u', u.put_points pts = some u' →
      (∀ j, u.cells.get j = true → u'.cells.get j = true) ∧
      (∀ p ∈ pts, u'.cells.get (Universe.pointIndex u.width p) = true)) ∧
    (∀ u0 u1 u2 : Universe, Universe.new InitType.Clear noDraws = some u0 →
      u0.put_glider = some u1 → u1.put_nebra = some u2 →
      (∀ p ∈ Universe.gliderPoints, u2.cells.get (Universe.pointIndex 64 p) = true) ∧
      (∀ p ∈ Universe.nebraPoints, u2.cells.get (Universe.pointIndex 64 p) = true)) := by
  have hgen : ∀ (u : Universe) (pts : List (Nat × Nat)) u', u.put_points pts = some u' →
      (∀ j, u.cells.get j = true → u'.cells.get j = true) ∧
      (∀ p ∈ pts, u'.cells.get (Universe.pointIndex u.width p) = true) := by
    intro u pts u' h
    have hb := put_points_some_bounds u pts u' h
    rw [Universe.put_points_eq u pts hb] at h
    injection h with h
    subst h
    constructor
    · intro j hj
      dsimp only
      rw [FixedBitSet.get_mk]
      by_cases hmem : j ∈ pts.map (Universe.pointIndex u.width)
      · rw [testBit_writeList_of_mem hmem]
      · rw [testBit_writeList_of_not_mem fun i hi hij => hmem (by rw [← hij]; exact hi)]
        exact hj
    · intro p hp
      dsimp only
      rw [FixedBitSet.get_mk, testBit_writeList_of_mem (List.mem_map_of_mem _ hp)]
  refine ⟨hgen, ?_⟩
  intro u0 u1 u2 h0 h1 h2
  rw [show Universe.new InitType.Clear noDraws = some ⟨64, 64, ⟨4096, 0⟩⟩ from rfl] at h0
  injection h0 with h0
  subst h0
  have hw1 : u1.width = 64 := (put_points_dims _ _ _ h1).1
  constructor
  · intro p hp
    exact (hgen u1 Universe.nebraPoints u2 h2).1 _ ((hgen _ Universe.gliderPoints u1 h1).2 p hp)
  · intro p hp
    have := (hgen u1 Universe.nebraPoints u2 h2).2 p hp
    rwa [hw1] at this

/-- Witness for C5 at the empty grid and the glider points. -/
theorem put_points_additive_witness :
    (∃ u', (⟨64, 64, ⟨4096, 0⟩⟩ : Universe).put_points Universe.gliderPoints = some u' ∧
      ∀ p ∈ Universe.gliderPoints,
        u'.cells.get (Universe.pointIndex (⟨64, 64, ⟨4096, 0⟩⟩ : Universe).width p) = true) := by
  have h : (⟨64, 64, ⟨4096, 0⟩⟩ : Universe).put_points Universe.gliderPoints =
      some { (⟨64, 64, ⟨4096, 0⟩⟩ : Universe) with cells :=
        ⟨4096, writeList (fun _ => true) 0
          (Universe.gliderPoints.map (Universe.pointIndex 64))⟩ } :=
    Universe.put_points_eq _ _ (by decide)
  exact ⟨_, h, (put_points_additive.1 _ _ _ h).2⟩

/-- C10: every computed bit index of the four presets is below
`width * height = 4096`, so the out-of-range (panic) branch of the bit-set
operation inside `put_points` is unreachable and every preset call on an
invariant-satisfying universe returns normally. -/
theorem presets_in_bounds :
    (∀ p ∈ Universe.gliderPoints, Universe.pointIndex 64 p < 64 * 64) ∧
    (∀ p ∈ Universe.spaceshipPoints, Universe.pointIndex 64 p < 64 * 64) ∧
    (∀ p ∈ Universe.linePoints, Universe.pointIndex 64 p < 64 * 64) ∧
    (∀ p ∈ Universe.nebraPoints, Universe.pointIndex 64 p < 64 * 64) ∧
    (∀ u : Universe, u.Inv →
      (∃ v, u.put_glider = some v) ∧ (∃ v, u.put_spaceship = some v) ∧
      (∃ v, u.put_line = some v) ∧ (∃ v, u.put_nebra = some v)) := by
  refine ⟨by decide, by decide, by decide, by decide, ?_⟩
  intro u h
  obtain ⟨hw, hh, hlen, hbits⟩ := h
  have hb : ∀ (pts : List (Nat × Nat)), (∀ p ∈ pts, Universe.pointIndex 64 p < 4096) →
      ∀ p ∈ pts, Universe.pointIndex u.width p < u.cells.len := by
    intro pts hpts p hp
    rw [hw, hlen, hw, hh]
    have := hpts p hp
    omega
  exact ⟨⟨_, Universe.put_points_eq u _ (hb _ (by decide))⟩,
    ⟨_, Universe.put_points_eq u _ (hb _ (by decide))⟩,
    ⟨_, Universe.put_points_eq u _ (hb _ (by decide))⟩,
    ⟨_, Universe.put_points_eq u _ (hb _ (by decide))⟩⟩

/-- Witness for C10 at the all-dead 64×64 grid. -/
theorem presets_in_bounds_witness :
    (⟨64, 64, ⟨4096, 0⟩⟩ : Universe).Inv ∧
      (∃ v, (⟨64, 64, ⟨4096, 0⟩⟩ : Universe).put_line = some v) :=
  ⟨⟨rfl, rfl, rfl, Nat.two_pow_pos _⟩,
   (presets_in_bounds.2.2.2.2 _ ⟨rfl, rfl, rfl, Nat.two_pow_pos _⟩).2.2.1⟩

/-- C9: with the random source abstracted as an injected draw sequence,
`put_random` with the same draws from any two invariant-satisfying prior
states produces identical universes — no bit of the prior state survives. -/
theorem put_random_replaces (u1 u2 : Universe) (d : Nat → Bool) (u1' u2' : Universe)
    (h1 : u1.Inv) (h2 : u2.Inv)
    (hr1 : u1.put_random d = some u1') (hr2 : u2.put_random d = some u2') :
    u1' = u2' := by
  obtain ⟨hw1, hh1, hlen1, hbits1⟩ := h1
  obtain ⟨hw2, hh2, hlen2, hbits2⟩ := h2
  rw [put_random_eq u1 d hlen1] at hr1
  rw [put_random_eq u2 d hlen2] at hr2
  injection hr1 with hr1
  injection hr2 with hr2
  subst hr1
  subst hr2
  rw [hlen1, hw1, hh1] at hbits1
  rw [hlen2, hw2, hh2] at hbits2
  have hW : writeList d u1.cells.bits (List.range (u1.width * u1.height)) =
      writeList d u2.cells.bits (List.range (u2.width * u2.height)) := by
    rw [hw1, hh1, hw2, hh2]
    apply Nat.eq_of_testBit_eq
    intro j
    by_cases hj : j < 64 * 64
    · rw [testBit_writeList_of_mem (List.mem_range.mpr hj),
        testBit_writeList_of_mem (List.mem_range.mpr hj)]
    · have hb1 : writeList d u1.cells.bits (List.range (64 * 64)) < 2 ^ j :=
        lt_of_lt_of_le (writeList_lt_two_pow hbits1 fun i hi => List.mem_range.mp hi)
          (Nat.pow_le_pow_right (by omega) (by omega))
      have hb2 : writeList d u2.cells.bits (List.range (64 * 64)) < 2 ^ j :=
        lt_of_lt_of_le (writeList_lt_two_pow hbits2 fun i hi => List.mem_range.mp hi)
          (Nat.pow_le_pow_right (by omega) (by omega))
      rw [Nat.testBit_lt_two_pow hb1, Nat.testBit_lt_two_pow hb2]
  cases u1 with
  | mk w1 ht1 c1 =>
    cases u2 with
    | mk w2 ht2 c2 =>
      dsimp only at hw1 hh1 hlen1 hw2 hh2 hlen2 hW ⊢
      subst hw1
      subst hh1
      subst hw2
      subst hh2
      rw [hlen1, hlen2, hW]

/-- Witness for C9: two different prior grids, the all-false draw
sequence. -/
theorem put_random_replaces_witness :
    (⟨64, 64, ⟨4096, 0⟩⟩ : Universe).Inv ∧
      (∃ u1' u2', (⟨64, 64, ⟨4096, 0⟩⟩ : Universe).put_random noDraws = some u1' ∧
        (⟨64, 64, ⟨4096, 1⟩⟩ : Universe).put_random noDraws = some u2' ∧ u1' = u2') :=
  ⟨⟨rfl, rfl, rfl, Nat.two_pow_pos _⟩,
   ⟨_, _, put_random_eq _ noDraws rfl, put_random_eq _ noDraws rfl,
    put_random_replaces _ _ noDraws _ _ ⟨rfl, rfl, rfl, Nat.two_pow_pos _⟩
      ⟨rfl, rfl, rfl, Nat.one_lt_two_pow (by decide)⟩
      (put_random_eq _ noDraws rfl) (put_random_eq _ noDraws rfl)⟩⟩

/-- C3: neighbor counting is toroidal — for every 64×64 grid state the
code's neighbor count equals the specification's count over the 8 offsets
`-1, 0, +1` (modulo height and width, excluding `(0, 0)`), and the count
at `(0, 0)` includes the live cell at `(width - 1, height - 1)`. -/
theorem live_neighbor_count_toroidal (u : Universe) (h : u.Inv) :
    (∀ row col, u.live_neighbor_count row col = u.spec_live_neighbor_count row col) ∧
    (u.cells.get (u.get_index (u.height - 1) (u.width - 1)) = true →
      1 ≤ u.live_neighbor_count 0 0) := by
  obtain ⟨hw, hh, -, -⟩ := h
  constructor
  · intro row col
    simp [Universe.live_neighbor_count, Universe.spec_live_neighbor_count,
      specNeighborDeltas, wrapIndex, Universe.get_index, hw, hh]
    have er1 : (((row : Int) + -1) % 64).toNat = (row + 63) % 64 := by omega
    have er0 : (((row : Int)) % 64).toNat = row % 64 := by omega
    have er2 : (((row : Int) + 1) % 64).toNat = (row + 1) % 64 := by omega
    have ec1 : (((col : Int) + -1) % 64).toNat = (col + 63) % 64 := by omega
    have ec0 : (((col : Int)) % 64).toNat = col % 64 := by omega
    have ec2 : (((col : Int) + 1) % 64).toNat = (col + 1) % 64 := by omega
    simp only [er1, er0, er2, ec1, ec0, ec2]
    ring
  · intro hcorner
    rw [hw, hh] at hcorner
    norm_num at hcorner
    simp only [Universe.live_neighbor_count, hw, hh, List.foldl_cons, List.foldl_nil]
    norm_num [hcorner]
    exact Nat.le_add_right_of_le (Nat.le_add_right_of_le (Nat.le_add_right_of_le
      (Nat.le_add_right_of_le (Nat.le_add_right_of_le (Nat.le_add_right_of_le
        (Nat.le_add_right 1 _))))))

/-- Witness for C3 at a grid whose only live cell is the corner
`(63, 63)`. -/
theorem live_neighbor_count_toroidal_witness :
    (⟨64, 64, ⟨4096, 2 ^ 4095⟩⟩ : Universe).Inv ∧
      (∀ row col, (⟨64, 64, ⟨4096, 2 ^ 4095⟩⟩ : Universe).live_neighbor_count row col =
        (⟨64, 64, ⟨4096, 2 ^ 4095⟩⟩ : Universe).spec_live_neighbor_count row col) :=
  have hInv : (⟨64, 64, ⟨4096, 2 ^ 4095⟩⟩ : Universe).Inv :=
    ⟨rfl, rfl, rfl, Nat.pow_lt_pow_right one_lt_two (by decide)⟩
  ⟨hInv, (live_neighbor_count_toroidal ⟨64, 64, ⟨4096, 2 ^ 4095⟩⟩ hInv).1⟩

theorem lt_two_pow_of_high_bits {x n : Nat} (h : ∀ j, n ≤ j → x.testBit j = false) :
    x < 2 ^ n := by
  by_contra hlt
  push_neg at hlt
  refine absurd (Nat.lt_of_testBit n (h n (Nat.le_refl n)) Nat.testBit_two_pow_self
    fun j hj => ?_) (Nat.not_lt.mpr hlt)
  rw [h j (Nat.le_of_lt hj), Nat.testBit_two_pow, decide_eq_false (by omega)]

theorem testBit_colMask0 {j : Nat} (hj : j < 4096) :
    colMask0.testBit j = decide (j % 64 = 0) := by
  rw [colMask0, testBit_wordsOfFn (fun _ => by decide) 64 (by omega),
    show (1 : Nat) = 2 ^ 0 from rfl, Nat.testBit_two_pow]
  rcases Nat.eq_zero_or_pos (j % 64) with h | h
  · rw [h]
  · rw [decide_eq_false (by omega), decide_eq_false (by omega)]

theorem testBit_colMaskTop {j : Nat} (hj : j < 4096) :
    colMaskTop.testBit j = decide (j % 64 = 63) := by
  rw [colMaskTop, testBit_wordsOfFn (fun _ => by decide) 64 (by omega),
    Nat.testBit_two_pow]
  by_cases h : j % 64 = 63
  · rw [decide_eq_true h.symm, decide_eq_true h]
  · rw [decide_eq_false (by omega), decide_eq_false h]

theorem testBit_colMaskKeep {j : Nat} (hj : j < 4096) :
    colMaskKeep.testBit j = decide (j % 64 < 63) := by
  rw [colMaskKeep, testBit_wordsOfFn (fun _ => by decide) 64 (by omega),
    Nat.testBit_two_pow_sub_one]

theorem tb_pow_sub_one (n i : Nat) : ((2 : Nat) ^ n - 1).testBit i = decide (i < n) :=
  Nat.testBit_two_pow_sub_one n i

theorem testBit_fullMask (j : Nat) : fullMask.testBit j = decide (j < 4096) :=
  tb_pow_sub_one 4096 j

theorem testBit_high_false {x : Nat} (hx : x < 2 ^ 4096) {j : Nat} (hj : 4096 ≤ j) :
    x.testBit j = false :=
  Nat.testBit_lt_two_pow (lt_of_lt_of_le hx (Nat.pow_le_pow_right (by omega) hj))

theorem or_lt_4096 {x y : Nat} (hx : x < 2 ^ 4096) (hy : y < 2 ^ 4096) :
    x ||| y < 2 ^ 4096 := by
  refine lt_two_pow_of_high_bits fun j hj => ?_
  rw [Nat.testBit_or, testBit_high_false hx hj, testBit_high_false hy hj]
  rfl

theorem xor_lt_4096 {x y : Nat} (hx : x < 2 ^ 4096) (hy : y < 2 ^ 4096) :
    x ^^^ y < 2 ^ 4096 := by
  refine lt_two_pow_of_high_bits fun j hj => ?_
  rw [Nat.testBit_xor, testBit_high_false hx hj, testBit_high_false hy hj]
  rfl

theorem and_lt_4096 {x : Nat} (y : Nat) (hx : x < 2 ^ 4096) : x &&& y < 2 ^ 4096 := by
  refine lt_two_pow_of_high_bits fun j hj => ?_
  rw [Nat.testBit_and, testBit_high_false hx hj]
  rfl

theorem colMask0_lt : colMask0 < 2 ^ 4096 := by
  rw [show (4096 : Nat) = 64 * 64 from rfl]
  exact wordsOfFn_lt_two_pow (fun i => show (1 : Nat) < 2 ^ 64 by decide) 64

theorem colMaskTop_lt : colMaskTop < 2 ^ 4096 := by
  rw [show (4096 : Nat) = 64 * 64 from rfl]
  exact wordsOfFn_lt_two_pow (fun i => show (2 : Nat) ^ 63 < 2 ^ 64 by decide) 64

theorem colMaskKeep_lt : colMaskKeep < 2 ^ 4096 := by
  rw [show (4096 : Nat) = 64 * 64 from rfl]
  exact wordsOfFn_lt_two_pow (fun i => show (2 : Nat) ^ 63 - 1 < 2 ^ 64 by decide) 64

theorem fullMask_lt : fullMask < 2 ^ 4096 :=
  Nat.sub_lt (Nat.two_pow_pos 4096) Nat.one_pos

theorem testBit_rowRotNext {x : Nat} (hx : x < 2 ^ 4096) {j : Nat} (hj : j < 4096) :
    (rowRotNext x).testBit j = x.testBit ((j / 64 + 1) % 64 * 64 + j % 64) := by
  simp only [rowRotNext, Nat.testBit_or, Nat.testBit_shiftRight, Nat.testBit_shiftLeft,
    Nat.testBit_and, tb_pow_sub_one]
  by_cases h : j < 4032
  · rw [decide_eq_false (by omega : ¬ 4032 ≤ j),
      show (j / 64 + 1) % 64 * 64 + j % 64 = 64 + j from by omega]
    simp
  · rw [decide_eq_true (by omega : 4032 ≤ j), testBit_high_false hx (by omega : 4096 ≤ 64 + j),
      decide_eq_true (by omega : j - 4032 < 64),
      show (j / 64 + 1) % 64 * 64 + j % 64 = j - 4032 from by omega]
    simp

theorem testBit_rowRotPrev {x : Nat} (hx : x < 2 ^ 4096) {j : Nat} (hj : j < 4096) :
    (rowRotPrev x).testBit j = x.testBit ((j / 64 + 63) % 64 * 64 + j % 64) := by
  simp only [rowRotPrev, Nat.testBit_or, Nat.testBit_shiftRight, Nat.testBit_shiftLeft,
    Nat.testBit_and, tb_pow_sub_one]
  by_cases h : 64 ≤ j
  · rw [decide_eq_true h, decide_eq_true (by omega : j - 64 < 4032),
      testBit_high_false hx (by omega : 4096 ≤ 4032 + j),
      show (j / 64 + 63) % 64 * 64 + j % 64 = j - 64 from by omega]
    simp
  · rw [decide_eq_false (by omega : ¬ 64 ≤ j),
      show (j / 64 + 63) % 64 * 64 + j % 64 = 4032 + j from by omega]
    simp

theorem testBit_colRotNext {x : Nat} (hx : x < 2 ^ 4096) {j : Nat} (hj : j < 4096) :
    (colRotNext x).testBit j = x.testBit (j / 64 * 64 + (j % 64 + 1) % 64) := by
  simp only [colRotNext, Nat.testBit_or, Nat.testBit_shiftRight, Nat.testBit_shiftLeft,
    Nat.testBit_and]
  by_cases h : j % 64 < 63
  · rw [testBit_colMaskKeep hj, decide_eq_true h,
      show j / 64 * 64 + (j % 64 + 1) % 64 = 1 + j from by omega]
    by_cases h63 : 63 ≤ j
    · rw [testBit_colMask0 (by omega : j - 63 < 4096),
        decide_eq_false (by omega : ¬ (j - 63) % 64 = 0), decide_eq_true h63]
      simp
    · rw [decide_eq_false h63]
      simp
  · rw [testBit_colMaskKeep hj, decide_eq_false h, testBit_colMask0 (by omega : j - 63 < 4096),
      decide_eq_true (by omega : (j - 63) % 64 = 0), decide_eq_true (by omega : 63 ≤ j),
      show j / 64 * 64 + (j % 64 + 1) % 64 = j - 63 from by omega]
    simp

theorem testBit_colRotPrev {x : Nat} (hx : x < 2 ^ 4096) {j : Nat} (hj : j < 4096) :
    (colRotPrev x).testBit j = x.testBit (j / 64 * 64 + (j % 64 + 63) % 64) := by
  simp only [colRotPrev, Nat.testBit_or, Nat.testBit_shiftRight, Nat.testBit_shiftLeft,
    Nat.testBit_and]
  by_cases h : 1 ≤ j % 64
  · have h2 : (x.testBit (63 + j) && colMaskTop.testBit (63 + j)) = false := by
      by_cases hhi : 63 + j < 4096
      · rw [testBit_colMaskTop hhi, decide_eq_false (by omega), Bool.and_false]
      · rw [testBit_high_false hx (by omega), Bool.false_and]
    rw [h2, decide_eq_true (by omega : 1 ≤ j), testBit_colMaskKeep (by omega : j - 1 < 4096),
      decide_eq_true (by omega : (j - 1) % 64 < 63),
      show j / 64 * 64 + (j % 64 + 63) % 64 = j - 1 from by omega]
    simp
  · have h1 : (decide (1 ≤ j) && (x.testBit (j - 1) && colMaskKeep.testBit (j - 1))) = false := by
      by_cases h0 : j = 0
      · subst h0
        simp
      · rw [testBit_colMaskKeep (by omega : j - 1 < 4096),
          decide_eq_false (by omega : ¬ (j - 1) % 64 < 63), Bool.and_false, Bool.and_false]
    rw [h1, testBit_colMaskTop (by omega : 63 + j < 4096),
      decide_eq_true (by omega : (63 + j) % 64 = 63),
      show j / 64 * 64 + (j % 64 + 63) % 64 = 63 + j from by omega]
    simp

theorem rowRotNext_lt {x : Nat} (hx : x < 2 ^ 4096) : rowRotNext x < 2 ^ 4096 := by
  refine lt_two_pow_of_high_bits fun j hj => ?_
  simp only [rowRotNext, Nat.testBit_or, Nat.testBit_shiftRight, Nat.testBit_shiftLeft,
    Nat.testBit_and, tb_pow_sub_one]
  rw [testBit_high_false hx (by omega), decide_eq_false (by omega : ¬ j - 4032 < 64)]
  simp

theorem rowRotPrev_lt {x : Nat} (hx : x < 2 ^ 4096) : rowRotPrev x < 2 ^ 4096 := by
  refine lt_two_pow_of_high_bits fun j hj => ?_
  simp only [rowRotPrev, Nat.testBit_or, Nat.testBit_shiftRight, Nat.testBit_shiftLeft,
    Nat.testBit_and, tb_pow_sub_one]
  rw [testBit_high_false hx (show (4096 : Nat) ≤ 4032 + j by omega),
    decide_eq_false (by omega : ¬ j - 64 < 4032)]
  simp

theorem colRotNext_lt {x : Nat} (hx : x < 2 ^ 4096) : colRotNext x < 2 ^ 4096 := by
  refine lt_two_pow_of_high_bits fun j hj => ?_
  simp only [colRotNext, Nat.testBit_or, Nat.testBit_shiftRight, Nat.testBit_shiftLeft,
    Nat.testBit_and]
  rw [testBit_high_false hx (by omega : 4096 ≤ 1 + j)]
  by_cases h63 : j - 63 < 4096
  · rw [testBit_colMask0 h63, decide_eq_false (by omega : ¬ (j - 63) % 64 = 0)]
    simp
  · rw [testBit_high_false hx (by omega : 4096 ≤ j - 63)]
    simp

theorem colRotPrev_lt {x : Nat} (hx : x < 2 ^ 4096) : colRotPrev x < 2 ^ 4096 := by
  refine lt_two_pow_of_high_bits fun j hj => ?_
  simp only [colRotPrev, Nat.testBit_or, Nat.testBit_shiftRight, Nat.testBit_shiftLeft,
    Nat.testBit_and]
  rw [testBit_high_false hx (by omega : 4096 ≤ 63 + j)]
  by_cases h1 : j - 1 < 4096
  · rw [testBit_colMaskKeep h1, decide_eq_false (by omega : ¬ (j - 1) % 64 < 63)]
    simp
  · rw [testBit_high_false hx (by omega : 4096 ≤ j - 1)]
    simp

theorem tripleBit_foldl (l : List Nat) (s : Nat × Nat × Nat) (j : Nat) :
    tripleBit (l.foldl addBoard3 s) j =
      (l.map fun n => n.testBit j).foldl addBit3 (tripleBit s j) := by
  induction l generalizing s with
  | nil => rfl
  | cons n l ih =>
    rw [List.foldl_cons, List.map_cons, List.foldl_cons, ih]
    congr 1
    simp [tripleBit, addBoard3, addBit3, Nat.testBit_xor, Nat.testBit_and]

theorem testBit_lifeStep {x : Nat} {j : Nat} (hj : j < 4096) :
    (lifeStep x).testBit j =
      boolStep (x.testBit j) ((neighborBoards x).map fun n => n.testBit j) := by
  have h := tripleBit_foldl (neighborBoards x) (0, 0, 0) j
  have h0 : tripleBit (0, 0, 0) j = (false, false, false) := by
    simp [tripleBit]
  rw [h0] at h
  have h1 := congrArg (fun t => t.1) h
  have h2 := congrArg (fun t => t.2.1) h
  have h3 := congrArg (fun t => t.2.2) h
  simp only [tripleBit] at h1 h2 h3
  simp only [lifeStep, boolStep, Nat.testBit_or, Nat.testBit_and, Nat.testBit_xor,
    testBit_fullMask, decide_eq_true hj, h1, h2, h3, Bool.true_xor]

theorem neighborBoards_lt {x : Nat} (hx : x < 2 ^ 4096) :
    ∀ n ∈ neighborBoards x, n < 2 ^ 4096 := by
  intro n hn
  simp only [neighborBoards, List.mem_cons, List.not_mem_nil, or_false] at hn
  rcases hn with rfl | rfl | rfl | rfl | rfl | rfl | rfl | rfl
  · exact colRotPrev_lt (rowRotPrev_lt hx)
  · exact rowRotPrev_lt hx
  · exact colRotNext_lt (rowRotPrev_lt hx)
  · exact colRotPrev_lt hx
  · exact colRotNext_lt hx
  · exact colRotPrev_lt (rowRotNext_lt hx)
  · exact rowRotNext_lt hx
  · exact colRotNext_lt (rowRotNext_lt hx)

theorem foldl_addBoard3_lt {l : List Nat} (hl : ∀ n ∈ l, n < 2 ^ 4096) :
    ∀ s : Nat × Nat × Nat, s.1 < 2 ^ 4096 → s.2.1 < 2 ^ 4096 → s.2.2 < 2 ^ 4096 →
      (l.foldl addBoard3 s).1 < 2 ^ 4096 ∧ (l.foldl addBoard3 s).2.1 < 2 ^ 4096 ∧
        (l.foldl addBoard3 s).2.2 < 2 ^ 4096 := by
  induction l with
  | nil => exact fun s h1 h2 h3 => ⟨h1, h2, h3⟩
  | cons n l ih =>
    intro s h1 h2 h3
    rw [List.foldl_cons]
    exact ih (fun m hm => hl m (List.mem_cons_of_mem _ hm)) _
      (xor_lt_4096 h1 (hl n (List.mem_cons_self n l)))
      (xor_lt_4096 h2 (and_lt_4096 _ h1))
      (xor_lt_4096 h3 (and_lt_4096 _ h2))

theorem lifeStep_lt {x : Nat} (hx : x < 2 ^ 4096) : lifeStep x < 2 ^ 4096 := by
  obtain ⟨h1, h2, h3⟩ := foldl_addBoard3_lt (neighborBoards_lt hx) (0, 0, 0)
    (Nat.two_pow_pos 4096) (Nat.two_pow_pos 4096) (Nat.two_pow_pos 4096)
  exact or_lt_4096 (and_lt_4096 _ h1) (and_lt_4096 _ hx)

theorem neighborBoards_bits {x : Nat} (hx : x < 2 ^ 4096) {j : Nat} (hj : j < 4096) :
    (neighborBoards x).map (fun n => n.testBit j) =
      [x.testBit ((j / 64 + 63) % 64 * 64 + (j % 64 + 63) % 64),
       x.testBit ((j / 64 + 63) % 64 * 64 + j % 64),
       x.testBit ((j / 64 + 63) % 64 * 64 + (j % 64 + 1) % 64),
       x.testBit (j / 64 * 64 + (j % 64 + 63) % 64),
       x.testBit (j / 64 * 64 + (j % 64 + 1) % 64),
       x.testBit ((j / 64 + 1) % 64 * 64 + (j % 64 + 63) % 64),
       x.testBit ((j / 64 + 1) % 64 * 64 + j % 64),
       x.testBit ((j / 64 + 1) % 64 * 64 + (j % 64 + 1) % 64)] := by
  have e1 : (colRotPrev (rowRotPrev x)).testBit j =
      x.testBit ((j / 64 + 63) % 64 * 64 + (j % 64 + 63) % 64) := by
    rw [testBit_colRotPrev (rowRotPrev_lt hx) hj,
      testBit_rowRotPrev hx (by omega : j / 64 * 64 + (j % 64 + 63) % 64 < 4096)]
    exact congrArg x.testBit (by omega)
  have e3 : (colRotNext (rowRotPrev x)).testBit j =
      x.testBit ((j / 64 + 63) % 64 * 64 + (j % 64 + 1) % 64) := by
    rw [testBit_colRotNext (rowRotPrev_lt hx) hj,
      testBit_rowRotPrev hx (by omega : j / 64 * 64 + (j % 64 + 1) % 64 < 4096)]
    exact congrArg x.testBit (by omega)
  have e6 : (colRotPrev (rowRotNext x)).testBit j =
      x.testBit ((j / 64 + 1) % 64 * 64 + (j % 64 + 63) % 64) := by
    rw [testBit_colRotPrev (rowRotNext_lt hx) hj,
      testBit_rowRotNext hx (by omega : j / 64 * 64 + (j % 64 + 63) % 64 < 4096)]
    exact congrArg x.testBit (by omega)
  have e8 : (colRotNext (rowRotNext x)).testBit j =
      x.testBit ((j / 64 + 1) % 64 * 64 + (j % 64 + 1) % 64) := by
    rw [testBit_colRotNext (rowRotNext_lt hx) hj,
      testBit_rowRotNext hx (by omega : j / 64 * 64 + (j % 64 + 1) % 64 < 4096)]
    exact congrArg x.testBit (by omega)
  simp only [neighborBoards, List.map_cons, List.map_nil, e1, e3, e6, e8,
    testBit_rowRotPrev hx hj, testBit_rowRotNext hx hj,
    testBit_colRotPrev hx hj, testBit_colRotNext hx hj]

theorem boolStep_eq_nextCell (a b1 b2 b3 b4 b5 b6 b7 b8 : Bool) :
    boolStep a [b1, b2, b3, b4, b5, b6, b7, b8] =
      Universe.nextCell a
        ((if b1 then 1 else 0) + (if b2 then 1 else 0) + (if b3 then 1 else 0) +
          (if b4 then 1 else 0) + (if b5 then 1 else 0) + (if b6 then 1 else 0) +
          (if b7 then 1 else 0) + (if b8 then 1 else 0)) := by
  cases a <;> cases b1 <;> cases b2 <;> cases b3 <;> cases b4 <;> cases b5 <;>
    cases b6 <;> cases b7 <;> cases b8 <;> rfl

theorem lnc_sum (u : Universe) (hw : u.width = 64) (hh : u.height = 64) (r c : Nat) :
    u.live_neighbor_count r c =
      (if u.cells.get (u.get_index ((r + 63) % 64) ((c + 63) % 64)) then 1 else 0) +
      (if u.cells.get (u.get_index ((r + 63) % 64) (c % 64)) then 1 else 0) +
      (if u.cells.get (u.get_index ((r + 63) % 64) ((c + 1) % 64)) then 1 else 0) +
      (if u.cells.get (u.get_index (r % 64) ((c + 63) % 64)) then 1 else 0) +
      (if u.cells.get (u.get_index (r % 64) ((c + 1) % 64)) then 1 else 0) +
      (if u.cells.get (u.get_index ((r + 1) % 64) ((c + 63) % 64)) then 1 else 0) +
      (if u.cells.get (u.get_index ((r + 1) % 64) (c % 64)) then 1 else 0) +
      (if u.cells.get (u.get_index ((r + 1) % 64) ((c + 1) % 64)) then 1 else 0) := by
  simp only [Universe.live_neighbor_count, hw, hh, List.foldl_cons, List.foldl_nil]
  norm_num

theorem stepBits_eq_lifeStep (u : Universe) (hw : u.width = 64) (hh : u.height = 64)
    (hbits : u.cells.bits < 2 ^ 4096) :
    u.stepBits = lifeStep u.cells.bits := by
  apply Nat.eq_of_testBit_eq
  intro j
  by_cases hj : j < 4096
  case neg =>
    have hs : u.stepBits < 2 ^ j := by
      calc u.stepBits < 2 ^ (u.width * u.height) := u.stepBits_lt_two_pow
        _ ≤ 2 ^ j := by
            rw [hw, hh]
            exact Nat.pow_le_pow_right (by omega) (by omega)
    have hl : lifeStep u.cells.bits < 2 ^ j :=
      lt_of_lt_of_le (lifeStep_lt hbits) (Nat.pow_le_pow_right (by omega) (by omega))
    rw [Nat.testBit_lt_two_pow hs, Nat.testBit_lt_two_pow hl]
  case pos =>
    have hW : ∀ i, Universe.rowWord u i < 2 ^ 64 := by
      intro i
      have h := u.rowWord_lt_two_pow i
      rwa [hw] at h
    have hr64 : j / 64 % 64 = j / 64 := Nat.mod_eq_of_lt (by omega)
    have hc64 : j % 64 % 64 = j % 64 := Nat.mod_eq_of_lt (by omega)
    have hstep : u.stepBits.testBit j =
        Universe.nextCell (u.cells.get j) (u.live_neighbor_count (j / 64) (j % 64)) := by
      rw [Universe.stepBits, hw, hh, testBit_wordsOfFn hW 64 (by omega : j < 64 * 64),
        Universe.rowWord, hw, testBit_bitsOfFn, decide_eq_true (by omega : j % 64 < 64),
        Bool.true_and, show j / 64 * 64 + j % 64 = j from by omega]
      simp only [Universe.tickVal, hw]
    rw [hstep, testBit_lifeStep hj, neighborBoards_bits hbits hj, boolStep_eq_nextCell,
      lnc_sum u hw hh]
    simp only [Universe.get_index, hw, hr64, hc64]
    rfl

theorem tick_eq_lifeStep (u : Universe) (h : u.Inv) :
    u.tick = some { u with cells := ⟨u.cells.len, lifeStep u.cells.bits⟩ } := by
  obtain ⟨hw, hh, hlen, hbits⟩ := h
  have hb : u.cells.bits < 2 ^ 4096 := by
    rw [hlen, hw, hh] at hbits
    exact hbits
  rw [Universe.tick_eq_stepBits u hlen (by rw [hlen]; rw [hlen] at hbits; exact hbits),
    stepBits_eq_lifeStep u hw hh hb]

set_option maxRecDepth 4000 in
/-- C2, evaluated at the failing input: on the all-dead 64×64 grid the
string `render` returns has 130 characters and 2 newline-terminated lines
of 64 glyphs each (one glyph per 32-bit block of `as_slice`), not the 64
lines of 64 per-cell glyphs the specification requires (which would take
at least 64 × 64 glyph characters). -/
theorem render_emits_word_lines_not_cell_lines :
    (Universe.new InitType.Clear noDraws).map
      (fun u => (u.render.data.length, u.render.data.count (Char.ofNat 10),
        u.displayLines.length, u.displayLines.map List.length)) =
    some (130, 2, 2, [64, 64]) := by
  decide

set_option maxRecDepth 4000 in
set_option maxHeartbeats 8000000 in
set_option exponentiation.threshold 100000 in
/-- C6: starting from the all-dead 64×64 grid, `put_glider` followed by
four `tick`s yields exactly the grid obtained by placing the same five
glider points translated by `(1, 1)` on the all-dead grid — the five
translated cells are alive and no other cell is. -/
theorem glider_four_ticks_translates :
    ((((((Universe.new InitType.Clear noDraws).bind Universe.put_glider).bind
        Universe.tick).bind Universe.tick).bind Universe.tick).bind Universe.tick) =
      (Universe.new InitType.Clear noDraws).bind
        (fun u => u.put_points (Universe.gliderPoints.map fun p => (p.1 + 1, p.2 + 1))) := by
  have hnew : Universe.new InitType.Clear noDraws = some ⟨64, 64, ⟨4096, 0⟩⟩ := rfl
  have h1 : (⟨64, 64, ⟨4096, 0⟩⟩ : Universe).put_glider =
      some ⟨64, 64, ⟨4096, 162811874242215943488091989760051509034524085097076566315377292632277629046233089470241073523911292306772452982878854054336468721132896256⟩⟩ := by decide
  have hb1 : (162811874242215943488091989760051509034524085097076566315377292632277629046233089470241073523911292306772452982878854054336468721132896256 : Nat) < 2 ^ 4096 := by decide
  have hb2 := lifeStep_lt hb1
  have hb3 := lifeStep_lt hb2
  have hb4 := lifeStep_lt hb3
  have h2 : (⟨64, 64, ⟨4096, 162811874242215943488091989760051509034524085097076566315377292632277629046233089470241073523911292306772452982878854054336468721132896256⟩⟩ : Universe).tick =
      some ⟨64, 64, ⟨4096, lifeStep 162811874242215943488091989760051509034524085097076566315377292632277629046233089470241073523911292306772452982878854054336468721132896256⟩⟩ :=
    tick_eq_lifeStep _ ⟨rfl, rfl, rfl, hb1⟩
  have h3 : (⟨64, 64, ⟨4096, lifeStep 162811874242215943488091989760051509034524085097076566315377292632277629046233089470241073523911292306772452982878854054336468721132896256⟩⟩ : Universe).tick =
      some ⟨64, 64, ⟨4096, lifeStep (lifeStep 162811874242215943488091989760051509034524085097076566315377292632277629046233089470241073523911292306772452982878854054336468721132896256)⟩⟩ :=
    tick_eq_lifeStep _ ⟨rfl, rfl, rfl, hb2⟩
  have h4 : (⟨64, 64, ⟨4096, lifeStep (lifeStep 162811874242215943488091989760051509034524085097076566315377292632277629046233089470241073523911292306772452982878854054336468721132896256)⟩⟩ : Universe).tick =
      some ⟨64, 64, ⟨4096, lifeStep (lifeStep (lifeStep 162811874242215943488091989760051509034524085097076566315377292632277629046233089470241073523911292306772452982878854054336468721132896256))⟩⟩ :=
    tick_eq_lifeStep _ ⟨rfl, rfl, rfl, hb3⟩
  have h5 : (⟨64, 64, ⟨4096, lifeStep (lifeStep (lifeStep 162811874242215943488091989760051509034524085097076566315377292632277629046233089470241073523911292306772452982878854054336468721132896256))⟩⟩ : Universe).tick =
      some ⟨64, 64, ⟨4096, lifeStep (lifeStep (lifeStep (lifeStep 162811874242215943488091989760051509034524085097076566315377292632277629046233089470241073523911292306772452982878854054336468721132896256)))⟩⟩ :=
    tick_eq_lifeStep _ ⟨rfl, rfl, rfl, hb4⟩
  simp only [hnew, Option.some_bind, h1, h2, h3, h4, h5]
  decide

end Gol
